import Mathlib

/-!
Shallow embedding of `src/trading_skills/black_scholes.py` over the reals.

Python floats are idealised as real numbers; `scipy.stats.norm.pdf` and
`norm.cdf` are the standard normal density and its cumulative integral;
`math.exp`, `math.log`, `math.sqrt` become `Real.exp`, `Real.log`,
`Real.sqrt`.  The iterative implied-volatility solver is embedded with its
iteration count as explicit fuel, exactly mirroring the bounded `for` loops
of the source.
-/

open MeasureTheory Set

noncomputable section

/-- Standard normal probability density (`scipy.stats.norm.pdf`). -/
def normPdf (x : ℝ) : ℝ := Real.exp (-(x ^ 2) / 2) / Real.sqrt (2 * Real.pi)

/-- Standard normal cumulative distribution (`scipy.stats.norm.cdf`). -/
def normCdf (x : ℝ) : ℝ := ∫ t in Iic x, normPdf t

/-- `_d1_d2` from `black_scholes.py`: the pair (d1, d2) of the Black-Scholes formula. -/
def _d1_d2 (S K T r sigma : ℝ) : ℝ × ℝ :=
  let sqrt_T := Real.sqrt T
  let d1 := (Real.log (S / K) + (r + 0.5 * sigma ^ 2) * T) / (sigma * sqrt_T)
  let d2 := d1 - sigma * sqrt_T
  (d1, d2)

/-- `black_scholes_price` from `black_scholes.py`. -/
def black_scholes_price (S K T r sigma : ℝ) (option_type : String) : ℝ :=
  if T ≤ 0 ∨ sigma ≤ 0 then
    if option_type = "call" then max 0 (S - K) else max 0 (K - S)
  else
    let d := _d1_d2 S K T r sigma
    if option_type = "call" then
      S * normCdf d.1 - K * Real.exp (-r * T) * normCdf d.2
    else
      K * Real.exp (-r * T) * normCdf (-d.2) - S * normCdf (-d.1)

/-- `black_scholes_vega` from `black_scholes.py`. -/
def black_scholes_vega (S K T r sigma : ℝ) : ℝ :=
  if T ≤ 0 ∨ sigma ≤ 0 then 0.0
  else
    let d := _d1_d2 S K T r sigma
    S * normPdf d.1 * Real.sqrt T

/-- `black_scholes_delta` from `black_scholes.py`. -/
def black_scholes_delta (S K T r sigma : ℝ) (option_type : String) : ℝ :=
  if T ≤ 0 ∨ sigma ≤ 0 then
    if option_type = "call" then (if S > K then 1.0 else 0.0)
    else (if S < K then -1.0 else 0.0)
  else
    let d := _d1_d2 S K T r sigma
    if option_type = "call" then normCdf d.1 else normCdf d.1 - 1.0

/-- Python's `round` to an integer: round-half-to-even (banker's rounding),
idealised over ℝ. -/
def roundHalfEven (x : ℝ) : ℤ :=
  if x - ⌊x⌋ < 1 / 2 then ⌊x⌋
  else if x - ⌊x⌋ > 1 / 2 then ⌊x⌋ + 1
  else if Even ⌊x⌋ then ⌊x⌋ else ⌊x⌋ + 1

/-- Python's `round(x, n)` for `n` decimal places, idealised over ℝ. -/
def pyRound (x : ℝ) (n : ℕ) : ℝ := (roundHalfEven (x * 10 ^ n) : ℝ) / 10 ^ n

/-- The six-field result dictionary of `black_scholes_greeks`. -/
structure GreeksResult where
  price : ℝ
  delta : ℝ
  gamma : ℝ
  theta : ℝ
  vega : ℝ
  rho : ℝ

/-- Return value of `black_scholes_greeks`: either an `{"error": msg}` dictionary
or the six-field Greeks dictionary. -/
inductive GreeksOutcome where
  | error (msg : String)
  | ok (g : GreeksResult)

/-- `black_scholes_greeks` from `black_scholes.py`. -/
def black_scholes_greeks (S K T r sigma : ℝ) (option_type : String) : GreeksOutcome :=
  if T ≤ 0 then .error "Option has expired"
  else if sigma ≤ 0 then .error "Invalid volatility"
  else
    let d := _d1_d2 S K T r sigma
    let d1 := d.1
    let d2 := d.2
    let sqrt_T := Real.sqrt T
    let N_d1 := normCdf d1
    let N_d2 := normCdf d2
    let n_d1 := normPdf d1
    let delta := if option_type = "call" then N_d1 else N_d1 - 1
    let theta :=
      if option_type = "call" then
        (-S * n_d1 * sigma / (2 * sqrt_T) - r * K * Real.exp (-r * T) * N_d2) / 365
      else
        (-S * n_d1 * sigma / (2 * sqrt_T) + r * K * Real.exp (-r * T) * normCdf (-d2)) / 365
    let rho :=
      if option_type = "call" then K * T * Real.exp (-r * T) * N_d2 / 100
      else -K * T * Real.exp (-r * T) * normCdf (-d2) / 100
    let price :=
      if option_type = "call" then S * N_d1 - K * Real.exp (-r * T) * N_d2
      else K * Real.exp (-r * T) * normCdf (-d2) - S * (1 - N_d1)
    let gamma := n_d1 / (S * sigma * sqrt_T)
    let vega := S * n_d1 * sqrt_T / 100
    .ok ⟨pyRound price 4, pyRound delta 4, pyRound gamma 6,
         pyRound theta 4, pyRound vega 4, pyRound rho 4⟩

/-- The bounded `for` loop of `_implied_volatility_bisection`, with the remaining
iteration count as fuel and the current bracket as state.  Fuel 0 corresponds to
the fall-through `return (low + high) / 2` after the loop. -/
def bisection_loop (market_price S K T r : ℝ) (option_type : String) (tolerance : ℝ) :
    ℕ → ℝ → ℝ → ℝ
  | 0, low, high => (low + high) / 2
  | n + 1, low, high =>
    let mid := (low + high) / 2
    let price := black_scholes_price S K T r mid option_type
    if |price - market_price| < tolerance then mid
    else if price > market_price then
      bisection_loop market_price S K T r option_type tolerance n low mid
    else
      bisection_loop market_price S K T r option_type tolerance n mid high

/-- `_implied_volatility_bisection` from `black_scholes.py`.  Its Python signature
is `float | None` but every return path yields a float, hence the unconditional
`some`.  Python defaults: `max_iterations = 100`, `tolerance = 1e-6`. -/
def _implied_volatility_bisection (market_price S K T r : ℝ) (option_type : String)
    (max_iterations : ℕ) (tolerance : ℝ) : Option ℝ :=
  some (bisection_loop market_price S K T r option_type tolerance max_iterations 0.001 5.0)

/-- The bounded Newton-Raphson `for` loop of `implied_volatility`, with the
remaining iteration count as fuel and the current sigma as state.  Fuel 0
corresponds to the fall-through to `_implied_volatility_bisection` (called with
that function's own defaults, as in the source). -/
def newton_loop (market_price S K T r : ℝ) (option_type : String) (tolerance : ℝ) :
    ℕ → ℝ → Option ℝ
  | 0, _ => _implied_volatility_bisection market_price S K T r option_type 100 (1e-6)
  | n + 1, sigma =>
    let price := black_scholes_price S K T r sigma option_type
    let vega := black_scholes_vega S K T r sigma
    if vega < 1e-10 then
      _implied_volatility_bisection market_price S K T r option_type 100 (1e-6)
    else
      let diff := price - market_price
      if |diff| < tolerance then some sigma
      else
        let sigma1 := sigma - diff / vega
        let sigma2 := if sigma1 ≤ 0.001 then 0.001 else if sigma1 > 5.0 then 5.0 else sigma1
        newton_loop market_price S K T r option_type tolerance n sigma2

/-- `implied_volatility` from `black_scholes.py`.  Python defaults:
`max_iterations = 100`, `tolerance = 1e-6`. -/
def implied_volatility (market_price S K T r : ℝ) (option_type : String)
    (max_iterations : ℕ) (tolerance : ℝ) : Option ℝ :=
  if market_price ≤ 0 ∨ T ≤ 0 then none
  else newton_loop market_price S K T r option_type tolerance max_iterations 0.3

/-- `estimate_iv` from `black_scholes.py`. -/
def estimate_iv (spot strike dte_years : ℝ) (option_type : String) : ℝ :=
  let base_iv := 0.35
  let moneyness := spot / strike
  if option_type = "call" then
    if moneyness > 1.1 then base_iv * 0.8
    else if moneyness < 0.9 then base_iv * 1.3
    else base_iv
  else
    if moneyness < 0.9 then base_iv * 0.8
    else if moneyness > 1.1 then base_iv * 1.3
    else base_iv

/-- C2: boundary policy of the plain pricer — whenever `T ≤ 0` or `sigma ≤ 0`
(including `sigma = 0` with `T > 0`), `black_scholes_price` returns exactly the
intrinsic value `max 0 (S - K)` for a call and `max 0 (K - S)` for a put, for
every `S`, `K`, `r`, and raises no error (it is a total function). -/
theorem C2_boundary_policy (S K T r sigma : ℝ) (h : T ≤ 0 ∨ sigma ≤ 0) :
    black_scholes_price S K T r sigma "call" = max 0 (S - K) ∧
    black_scholes_price S K T r sigma "put" = max 0 (K - S) := by
  unfold black_scholes_price
  rw [if_pos h, if_pos h]
  exact ⟨by rw [if_pos rfl], by rw [if_neg (by decide)]⟩

/-- Witness for C2 at the concrete input S=100, K=90, T=0, r=0.05, sigma=0.2. -/
theorem C2_boundary_policy_witness :
    black_scholes_price 100 90 0 0.05 0.2 "call" = max 0 (100 - 90) ∧
    black_scholes_price 100 90 0 0.05 0.2 "put" = max 0 (90 - 100) :=
  C2_boundary_policy 100 90 0 0.05 0.2 (Or.inl (by norm_num))

/-- C9: moneyness-based IV estimate — for every spot > 0, strike > 0 and any
`dte_years`, `estimate_iv` returns exactly 0.35·0.8 = 0.28 for a call with
spot/strike > 1.1, exactly 0.35·1.3 = 0.455 for a call with spot/strike < 0.9,
and 0.35 otherwise; for puts the two legs are mirrored. -/
theorem C9_estimate_iv (spot strike dte_years : ℝ) (hs : 0 < spot) (hk : 0 < strike) :
    ((spot / strike > 1.1 → estimate_iv spot strike dte_years "call" = 0.28) ∧
     (spot / strike < 0.9 → estimate_iv spot strike dte_years "call" = 0.455) ∧
     (0.9 ≤ spot / strike → spot / strike ≤ 1.1 →
        estimate_iv spot strike dte_years "call" = 0.35)) ∧
    ((spot / strike < 0.9 → estimate_iv spot strike dte_years "put" = 0.28) ∧
     (spot / strike > 1.1 → estimate_iv spot strike dte_years "put" = 0.455) ∧
     (0.9 ≤ spot / strike → spot / strike ≤ 1.1 →
        estimate_iv spot strike dte_years "put" = 0.35)) := by
  unfold estimate_iv
  rw [if_pos rfl, if_neg (by decide : ¬ ("put" : String) = "call")]
  refine ⟨⟨fun h => ?_, fun h => ?_, fun h1 h2 => ?_⟩,
          ⟨fun h => ?_, fun h => ?_, fun h1 h2 => ?_⟩⟩
  · rw [if_pos h]; norm_num
  · rw [if_neg (by linarith), if_pos h]; norm_num
  · rw [if_neg (by linarith), if_neg (by linarith)]
  · rw [if_pos h]; norm_num
  · rw [if_neg (by linarith), if_pos h]; norm_num
  · rw [if_neg (by linarith), if_neg (by linarith)]

/-- Witness for C9 at spot=120, strike=100, dte_years=0.5 (a deep-ITM call). -/
theorem C9_estimate_iv_witness :
    (120 : ℝ) / 100 > 1.1 ∧ estimate_iv 120 100 0.5 "call" = 0.28 :=
  ⟨by norm_num,
   (C9_estimate_iv 120 100 0.5 (by norm_num) (by norm_num)).1.1 (by norm_num)⟩

/-- C10: the `option_type` argument is dispatched by equality with the string
"call" only — for every input, `black_scholes_price`, `black_scholes_delta` and
`black_scholes_greeks` treat any `option_type` other than "call" exactly as a
put, with no validation or error. -/
theorem C10_option_type_dispatch (S K T r sigma : ℝ) (ot : String) (h : ot ≠ "call") :
    black_scholes_price S K T r sigma ot = black_scholes_price S K T r sigma "put" ∧
    black_scholes_delta S K T r sigma ot = black_scholes_delta S K T r sigma "put" ∧
    black_scholes_greeks S K T r sigma ot = black_scholes_greeks S K T r sigma "put" := by
  have hput : ¬ ("put" : String) = "call" := by decide
  unfold black_scholes_price black_scholes_delta black_scholes_greeks
  simp only [if_neg h, if_neg hput]
  exact ⟨trivial, trivial, trivial⟩

/-- Witness for C10 with the invalid option type "banana". -/
theorem C10_option_type_dispatch_witness :
    black_scholes_price 100 100 1 0.05 0.2 "banana"
      = black_scholes_price 100 100 1 0.05 0.2 "put" ∧
    black_scholes_delta 100 100 1 0.05 0.2 "banana"
      = black_scholes_delta 100 100 1 0.05 0.2 "put" ∧
    black_scholes_greeks 100 100 1 0.05 0.2 "banana"
      = black_scholes_greeks 100 100 1 0.05 0.2 "put" :=
  C10_option_type_dispatch 100 100 1 0.05 0.2 "banana" (by decide)

/-- C3: the full Greeks bundle is strict where the pricer is lenient — for every
input it returns the explicit error value "Option has expired" when T ≤ 0, the
explicit error value "Invalid volatility" when T > 0 and sigma ≤ 0, and the
six-field result otherwise; it never raises. -/
theorem C3_greeks_strictness (S K T r sigma : ℝ) (ot : String) :
    (T ≤ 0 → black_scholes_greeks S K T r sigma ot = .error "Option has expired") ∧
    (0 < T → sigma ≤ 0 →
      black_scholes_greeks S K T r sigma ot = .error "Invalid volatility") ∧
    (0 < T → 0 < sigma →
      ∃ g : GreeksResult, black_scholes_greeks S K T r sigma ot = .ok g) := by
  refine ⟨fun hT => ?_, fun hT hs => ?_, fun hT hs => ?_⟩
  · unfold black_scholes_greeks
    rw [if_pos hT]
  · unfold black_scholes_greeks
    rw [if_neg (not_le.mpr hT), if_pos hs]
  · unfold black_scholes_greeks
    rw [if_neg (not_le.mpr hT), if_neg (not_le.mpr hs)]
    exact ⟨_, rfl⟩

/-- Witness for C3: the three behaviours at concrete inputs. -/
theorem C3_greeks_strictness_witness :
    black_scholes_greeks 100 100 0 0.05 0.2 "call" = .error "Option has expired" ∧
    black_scholes_greeks 100 100 0.5 0.05 (-0.1) "call" = .error "Invalid volatility" ∧
    ∃ g : GreeksResult, black_scholes_greeks 100 100 0.5 0.05 0.2 "call" = .ok g :=
  ⟨(C3_greeks_strictness 100 100 0 0.05 0.2 "call").1 (by norm_num),
   (C3_greeks_strictness 100 100 0.5 0.05 (-0.1) "call").2.1 (by norm_num) (by norm_num),
   (C3_greeks_strictness 100 100 0.5 0.05 0.2 "call").2.2 (by norm_num) (by norm_num)⟩

lemma normPdf_pos (x : ℝ) : 0 < normPdf x :=
  div_pos (Real.exp_pos _) (Real.sqrt_pos.mpr (by positivity))

lemma normPdf_nonneg (x : ℝ) : 0 ≤ normPdf x := (normPdf_pos x).le

lemma normPdf_neg (x : ℝ) : normPdf (-x) = normPdf x := by
  unfold normPdf; rw [neg_pow]; norm_num

lemma continuous_normPdf : Continuous normPdf := by
  unfold normPdf
  exact (Real.continuous_exp.comp (by continuity)).div_const _

lemma normPdf_eq (x : ℝ) : normPdf x = Real.exp (-(1 / 2) * x ^ 2) / Real.sqrt (2 * Real.pi) := by
  unfold normPdf
  congr 1
  ring_nf

lemma integrable_normPdf : Integrable normPdf := by
  have h : Integrable (fun x : ℝ => Real.exp (-(1 / 2) * x ^ 2) / Real.sqrt (2 * Real.pi)) :=
    (integrable_exp_neg_mul_sq (by norm_num : (0 : ℝ) < 1 / 2)).div_const _
  exact h.congr (Filter.Eventually.of_forall fun x => (normPdf_eq x).symm)

lemma integral_normPdf : ∫ t : ℝ, normPdf t = 1 := by
  have h1 : ∫ t : ℝ, normPdf t
      = (∫ t : ℝ, Real.exp (-(1 / 2) * t ^ 2)) / Real.sqrt (2 * Real.pi) := by
    rw [← integral_div]
    exact integral_congr_ae (Filter.Eventually.of_forall fun x => normPdf_eq x)
  rw [h1, integral_gaussian]
  rw [show Real.pi / (1 / 2) = 2 * Real.pi by ring]
  exact div_self (Real.sqrt_ne_zero'.mpr (by positivity))

lemma normCdf_eq_Ioi (x : ℝ) : normCdf x = ∫ t in Ioi (-x), normPdf t := by
  unfold normCdf
  rw [← integral_comp_neg_Iic x normPdf]
  exact integral_congr_ae (Filter.Eventually.of_forall fun t => (normPdf_neg t).symm)

/-- The standard normal CDF satisfies `Φ(x) + Φ(-x) = 1`. -/
lemma normCdf_add_neg (x : ℝ) : normCdf x + normCdf (-x) = 1 := by
  rw [normCdf_eq_Ioi x, add_comm]
  unfold normCdf
  rw [intervalIntegral.integral_Iic_add_Ioi integrable_normPdf.integrableOn
    integrable_normPdf.integrableOn]
  exact integral_normPdf

lemma normCdf_nonneg (x : ℝ) : 0 ≤ normCdf x :=
  setIntegral_nonneg measurableSet_Iic fun t _ => normPdf_nonneg t

lemma normCdf_le_one (x : ℝ) : normCdf x ≤ 1 := by
  have h := normCdf_add_neg x
  have := normCdf_nonneg (-x)
  linarith

lemma normCdf_mono : Monotone normCdf := fun x y hxy => by
  unfold normCdf
  exact setIntegral_mono_set integrable_normPdf.integrableOn
    (Filter.Eventually.of_forall fun t => normPdf_nonneg t)
    (HasSubset.Subset.eventuallyLE (Iic_subset_Iic.mpr hxy))

lemma normCdf_zero : normCdf 0 = 1 / 2 := by
  have h := normCdf_add_neg 0
  rw [neg_zero] at h
  linarith

/-- C1: put-call parity — for every S > 0, K > 0, T > 0, every real r and every
sigma > 0, `black_scholes_price S K T r sigma "call"` minus
`black_scholes_price S K T r sigma "put"` equals `S - K·exp(-r·T)` (here proved
exactly, hence in particular within 1e-6). -/
theorem C1_put_call_parity (S K T r sigma : ℝ) (hS : 0 < S) (hK : 0 < K)
    (hT : 0 < T) (hsig : 0 < sigma) :
    black_scholes_price S K T r sigma "call" - black_scholes_price S K T r sigma "put"
      = S - K * Real.exp (-r * T) ∧
    |black_scholes_price S K T r sigma "call" - black_scholes_price S K T r sigma "put"
      - (S - K * Real.exp (-r * T))| ≤ 1e-6 := by
  have hcond : ¬ (T ≤ 0 ∨ sigma ≤ 0) := by
    rintro (h | h) <;> linarith
  have heq : black_scholes_price S K T r sigma "call"
      - black_scholes_price S K T r sigma "put" = S - K * Real.exp (-r * T) := by
    unfold black_scholes_price
    rw [if_neg hcond, if_neg hcond, if_pos rfl, if_neg (by decide : ¬ ("put" : String) = "call")]
    have h1 := normCdf_add_neg (_d1_d2 S K T r sigma).1
    have h2 := normCdf_add_neg (_d1_d2 S K T r sigma).2
    linear_combination S * h1 - K * Real.exp (-r * T) * h2
  refine ⟨heq, ?_⟩
  rw [heq]
  norm_num

/-- Witness for C1 at S=100, K=95, T=1, r=0.05, sigma=0.2. -/
theorem C1_put_call_parity_witness :
    black_scholes_price 100 95 1 0.05 0.2 "call" - black_scholes_price 100 95 1 0.05 0.2 "put"
      = 100 - 95 * Real.exp (-0.05 * 1) ∧
    |black_scholes_price 100 95 1 0.05 0.2 "call" - black_scholes_price 100 95 1 0.05 0.2 "put"
      - (100 - 95 * Real.exp (-0.05 * 1))| ≤ 1e-6 :=
  C1_put_call_parity 100 95 1 0.05 0.2 (by norm_num) (by norm_num) (by norm_num) (by norm_num)

/-- C8: delta bounds and expiry step — for every S > 0, K > 0 and all T, r,
sigma, `black_scholes_delta` lies in [0, 1] for calls and in [-1, 0] for puts;
at the boundary (T ≤ 0 or sigma ≤ 0) it is exactly 1.0 for a call with S > K and
0.0 otherwise, and exactly -1.0 for a put with S < K and 0.0 otherwise. -/
theorem C8_delta_bounds (S K T r sigma : ℝ) (hS : 0 < S) (hK : 0 < K) :
    (0 ≤ black_scholes_delta S K T r sigma "call" ∧
     black_scholes_delta S K T r sigma "call" ≤ 1) ∧
    (-1 ≤ black_scholes_delta S K T r sigma "put" ∧
     black_scholes_delta S K T r sigma "put" ≤ 0) ∧
    (T ≤ 0 ∨ sigma ≤ 0 →
      (S > K → black_scholes_delta S K T r sigma "call" = 1.0) ∧
      (¬ S > K → black_scholes_delta S K T r sigma "call" = 0.0) ∧
      (S < K → black_scholes_delta S K T r sigma "put" = -1.0) ∧
      (¬ S < K → black_scholes_delta S K T r sigma "put" = 0.0)) := by
  have hput : ¬ ("put" : String) = "call" := by decide
  by_cases hb : T ≤ 0 ∨ sigma ≤ 0
  · unfold black_scholes_delta
    rw [if_pos hb, if_pos hb, if_pos rfl, if_neg hput]
    refine ⟨?_, ?_, fun _ => ⟨fun h => ?_, fun h => ?_, fun h => ?_, fun h => ?_⟩⟩
    · split_ifs <;> norm_num
    · split_ifs <;> norm_num
    · rw [if_pos h]
    · rw [if_neg h]
    · rw [if_pos h]
    · rw [if_neg h]
  · unfold black_scholes_delta
    rw [if_neg hb, if_neg hb, if_pos rfl, if_neg hput]
    have h0 := normCdf_nonneg (_d1_d2 S K T r sigma).1
    have h1 := normCdf_le_one (_d1_d2 S K T r sigma).1
    exact ⟨⟨h0, h1⟩, ⟨by linarith, by linarith⟩, fun h => absurd h hb⟩

/-- Witness for C8 at S=100, K=90, T=1, r=0.05, sigma=0.2. -/
theorem C8_delta_bounds_witness :
    (0 ≤ black_scholes_delta 100 90 1 0.05 0.2 "call" ∧
     black_scholes_delta 100 90 1 0.05 0.2 "call" ≤ 1) ∧
    (-1 ≤ black_scholes_delta 100 90 1 0.05 0.2 "put" ∧
     black_scholes_delta 100 90 1 0.05 0.2 "put" ≤ 0) ∧
    ((1 : ℝ) ≤ 0 ∨ (0.2 : ℝ) ≤ 0 →
      ((100 : ℝ) > 90 → black_scholes_delta 100 90 1 0.05 0.2 "call" = 1.0) ∧
      (¬ (100 : ℝ) > 90 → black_scholes_delta 100 90 1 0.05 0.2 "call" = 0.0) ∧
      ((100 : ℝ) < 90 → black_scholes_delta 100 90 1 0.05 0.2 "put" = -1.0) ∧
      (¬ (100 : ℝ) < 90 → black_scholes_delta 100 90 1 0.05 0.2 "put" = 0.0)) :=
  C8_delta_bounds 100 90 1 0.05 0.2 (by norm_num) (by norm_num)

lemma bisection_loop_mem (mp S K T r : ℝ) (ot : String) (tol : ℝ) :
    ∀ (n : ℕ) (low high : ℝ), low ≤ high →
      low ≤ bisection_loop mp S K T r ot tol n low high ∧
      bisection_loop mp S K T r ot tol n low high ≤ high := by
  intro n
  induction n with
  | zero =>
    intro low high h
    simp only [bisection_loop]
    constructor <;> linarith
  | succ n ih =>
    intro low high h
    simp only [bisection_loop]
    split_ifs with h1 h2
    · constructor <;> linarith
    · have hmem := ih low ((low + high) / 2) (by linarith)
      constructor <;> linarith [hmem.1, hmem.2]
    · have hmem := ih ((low + high) / 2) high (by linarith)
      constructor <;> linarith [hmem.1, hmem.2]

lemma bisection_some_mem (mp S K T r : ℝ) (ot : String) (mi : ℕ) (tol : ℝ) :
    ∃ x, _implied_volatility_bisection mp S K T r ot mi tol = some x ∧
      0.001 ≤ x ∧ x ≤ 5.0 := by
  refine ⟨_, rfl, ?_⟩
  exact bisection_loop_mem mp S K T r ot tol mi 0.001 5.0 (by norm_num)

lemma newton_loop_mem (mp S K T r : ℝ) (ot : String) (tol : ℝ) :
    ∀ (n : ℕ) (sigma : ℝ), 0.001 ≤ sigma → sigma ≤ 5.0 →
      ∃ x, newton_loop mp S K T r ot tol n sigma = some x ∧ 0.001 ≤ x ∧ x ≤ 5.0 := by
  intro n
  induction n with
  | zero =>
    intro sigma h1 h2
    simp only [newton_loop]
    exact bisection_some_mem mp S K T r ot 100 (1e-6)
  | succ n ih =>
    intro sigma h1 h2
    simp only [newton_loop]
    split_ifs with hv hc hlo hhi
    · exact bisection_some_mem mp S K T r ot 100 (1e-6)
    · exact ⟨sigma, rfl, h1, h2⟩
    · exact ih 0.001 le_rfl (by norm_num)
    · exact ih 5.0 (by norm_num) le_rfl
    · exact ih _ (by linarith [not_le.mp hlo]) (by linarith [not_lt.mp hhi])

/-- C4: IV solver totality and domain — `implied_volatility` (at its Python
defaults, 100 iterations and tolerance 1e-6) returns `none` exactly when
`market_price ≤ 0` or `T ≤ 0`, and for every market_price > 0, T > 0, S > 0,
K > 0 it never raises (it is a total function) and returns some sigma lying in
[0.001, 5.0]. -/
theorem C4_iv_solver_domain (mp S K T r : ℝ) (ot : String) (hS : 0 < S) (hK : 0 < K) :
    (implied_volatility mp S K T r ot 100 (1e-6) = none ↔ mp ≤ 0 ∨ T ≤ 0) ∧
    (0 < mp → 0 < T →
      ∃ sigma, implied_volatility mp S K T r ot 100 (1e-6) = some sigma ∧
        0.001 ≤ sigma ∧ sigma ≤ 5.0) := by
  have hsome : ¬ (mp ≤ 0 ∨ T ≤ 0) →
      ∃ sigma, implied_volatility mp S K T r ot 100 (1e-6) = some sigma ∧
        0.001 ≤ sigma ∧ sigma ≤ 5.0 := by
    intro h
    unfold implied_volatility
    rw [if_neg h]
    exact newton_loop_mem mp S K T r ot (1e-6) 100 0.3 (by norm_num) (by norm_num)
  constructor
  · constructor
    · intro hnone
      by_contra h
      obtain ⟨s, hs, _⟩ := hsome h
      rw [hnone] at hs
      exact Option.noConfusion hs
    · intro h
      unfold implied_volatility
      rw [if_pos h]
  · intro h1 h2
    exact hsome (by rintro (h | h) <;> linarith)

/-- Witness for C4 at market_price=10, S=100, K=100, T=0.5, r=0.05. -/
theorem C4_iv_solver_domain_witness :
    (implied_volatility 10 100 100 0.5 0.05 "call" 100 (1e-6) = none ↔
      (10 : ℝ) ≤ 0 ∨ (0.5 : ℝ) ≤ 0) ∧
    ((0 : ℝ) < 10 → (0 : ℝ) < 0.5 →
      ∃ sigma, implied_volatility 10 100 100 0.5 0.05 "call" 100 (1e-6) = some sigma ∧
        0.001 ≤ sigma ∧ sigma ≤ 5.0) :=
  C4_iv_solver_domain 10 100 100 0.5 0.05 "call" (by norm_num) (by norm_num)

/-- Modelled from the spec wording of §4.4 step 2 / claim C5: midpoint bisection
on [0.001, 5.0], stopping when the absolute price difference is below the
tolerance, shrinking the upper bound when the midpoint price exceeds the market
price and the lower bound otherwise, and returning the midpoint of the final
bracket when it does not converge. -/
def spec_bisection (market_price S K T r : ℝ) (option_type : String) (tolerance : ℝ) :
    ℕ → ℝ → ℝ → ℝ
  | 0, low, high => (low + high) / 2
  | n + 1, low, high =>
    let mid := (low + high) / 2
    if |black_scholes_price S K T r mid option_type - market_price| < tolerance then mid
    else if black_scholes_price S K T r mid option_type > market_price then
      spec_bisection market_price S K T r option_type tolerance n low mid
    else
      spec_bisection market_price S K T r option_type tolerance n mid high

/-- Modelled from the spec wording of §4.4 step 1 / claim C5: Newton-Raphson
where each step computes the price and the raw vega at the current sigma,
delegates immediately to bisection when vega < 1e-10, returns the current sigma
once the absolute price difference is below 1e-6, otherwise takes the Newton
step and clamps the updated sigma into [0.001, 5.0] (written as the
max/min clamp of the spec), and falls through to bisection when the iteration
budget is exhausted without convergence. -/
def spec_newton (market_price S K T r : ℝ) (option_type : String) :
    ℕ → ℝ → Option ℝ
  | 0, _ => some (spec_bisection market_price S K T r option_type (1e-6) 100 0.001 5.0)
  | n + 1, sigma =>
    if black_scholes_vega S K T r sigma < 1e-10 then
      some (spec_bisection market_price S K T r option_type (1e-6) 100 0.001 5.0)
    else if |black_scholes_price S K T r sigma option_type - market_price| < 1e-6 then
      some sigma
    else
      spec_newton market_price S K T r option_type n
        (max 0.001 (min 5.0 (sigma -
          (black_scholes_price S K T r sigma option_type - market_price) /
            black_scholes_vega S K T r sigma)))

/-- Modelled from the spec wording of §4.4 / claim C5: the two-stage IV solver —
no solution when the market price or T is non-positive, otherwise Newton-Raphson
from starting guess sigma = 0.30 for at most 100 iterations with the bisection
fallback described above. -/
def spec_implied_volatility (market_price S K T r : ℝ) (option_type : String) : Option ℝ :=
  if market_price ≤ 0 ∨ T ≤ 0 then none
  else spec_newton market_price S K T r option_type 100 0.3

lemma clamp_eq (x : ℝ) :
    (if x ≤ 0.001 then (0.001 : ℝ) else if x > 5.0 then 5.0 else x)
      = max 0.001 (min 5.0 x) := by
  split_ifs with h1 h2
  · rw [min_eq_right (by linarith : x ≤ 5.0), max_eq_left h1]
  · rw [min_eq_left (by linarith : (5.0 : ℝ) ≤ x), max_eq_right (by norm_num : (0.001 : ℝ) ≤ 5.0)]
  · rw [min_eq_right (by linarith [not_lt.mp h2] : x ≤ 5.0),
      max_eq_right (by linarith [not_le.mp h1] : (0.001 : ℝ) ≤ x)]

lemma bisection_loop_eq_spec (mp S K T r : ℝ) (ot : String) (tol : ℝ) :
    ∀ (n : ℕ) (low high : ℝ),
      bisection_loop mp S K T r ot tol n low high
        = spec_bisection mp S K T r ot tol n low high := by
  intro n
  induction n with
  | zero => intro low high; rfl
  | succ n ih =>
    intro low high
    simp only [bisection_loop, spec_bisection]
    split_ifs <;> first | rfl | exact ih _ _

lemma newton_loop_eq_spec (mp S K T r : ℝ) (ot : String) :
    ∀ (n : ℕ) (sigma : ℝ),
      newton_loop mp S K T r ot (1e-6) n sigma = spec_newton mp S K T r ot n sigma := by
  intro n
  induction n with
  | zero =>
    intro sigma
    simp only [newton_loop, spec_newton, _implied_volatility_bisection]
    rw [bisection_loop_eq_spec]
  | succ n ih =>
    intro sigma
    simp only [newton_loop, spec_newton, _implied_volatility_bisection]
    rw [← clamp_eq]
    split_ifs <;> first | rw [bisection_loop_eq_spec] | rfl | exact ih _

/-- C5: the two-stage IV algorithm — `implied_volatility` at its Python defaults
(100 iterations, tolerance 1e-6) coincides with the algorithm exactly as claim
C5 describes it: Newton-Raphson from starting guess 0.30 for at most 100
iterations with tolerance 1e-6 on the absolute price difference, clamping each
updated sigma into [0.001, 5.0], delegating immediately to bisection on
[0.001, 5.0] whenever vega < 1e-10, falling through to bisection when the 100
iterations are exhausted, the bisection returning the midpoint of the final
bracket when it does not converge. -/
theorem C5_iv_two_stage_algorithm (mp S K T r : ℝ) (ot : String) :
    implied_volatility mp S K T r ot 100 (1e-6) = spec_implied_volatility mp S K T r ot := by
  unfold implied_volatility spec_implied_volatility
  split_ifs with h
  · rfl
  · exact newton_loop_eq_spec mp S K T r ot 100 0.3

lemma normCdf_eq_intervalIntegral (u : ℝ) :
    normCdf u = (∫ t in (0 : ℝ)..u, normPdf t) + normCdf 0 := by
  unfold normCdf
  rw [← intervalIntegral.integral_Iic_sub_Iic integrable_normPdf.integrableOn
    integrable_normPdf.integrableOn]
  ring

lemma hasDerivAt_normCdf (y : ℝ) : HasDerivAt normCdf (normPdf y) y := by
  have h : HasDerivAt (fun u => (∫ t in (0 : ℝ)..u, normPdf t) + normCdf 0) (normPdf y) y := by
    refine HasDerivAt.add_const ?_ _
    exact intervalIntegral.integral_hasDerivAt_right
      integrable_normPdf.intervalIntegrable
      (continuous_normPdf.stronglyMeasurableAtFilter _ _)
      continuous_normPdf.continuousAt
  exact h.congr_of_eventuallyEq
    (Filter.Eventually.of_forall fun u => normCdf_eq_intervalIntegral u)

/-- If the smooth-region call-price shape `C·Φ(A/σ + B·σ) - E·Φ(A/σ - B·σ)`
satisfies the density identity `C·φ(d1) = E·φ(d2)`, then it is strictly
increasing in σ on (0, ∞): its derivative is `2·B·E·φ(d2) > 0`. -/
lemma bs_call_shape_strictMono (C E A B : ℝ) (hE : 0 < E) (hB : 0 < B)
    (hid : ∀ σ : ℝ, σ ≠ 0 →
      C * normPdf (A * σ⁻¹ + B * σ) = E * normPdf (A * σ⁻¹ - B * σ)) :
    StrictMonoOn (fun σ : ℝ => C * normCdf (A * σ⁻¹ + B * σ) - E * normCdf (A * σ⁻¹ - B * σ))
      (Set.Ioi 0) := by
  have hderiv : ∀ σ : ℝ, σ ∈ Set.Ioi (0 : ℝ) →
      HasDerivAt (fun x : ℝ => C * normCdf (A * x⁻¹ + B * x) - E * normCdf (A * x⁻¹ - B * x))
        (2 * B * (E * normPdf (A * σ⁻¹ - B * σ))) σ := by
    intro σ hσ
    have hσ0 : σ ≠ 0 := (Set.mem_Ioi.mp hσ).ne'
    have hg1 : HasDerivAt (fun x : ℝ => A * x⁻¹ + B * x) (A * (-(σ ^ 2)⁻¹) + B * 1) σ :=
      ((hasDerivAt_inv hσ0).const_mul A).add ((hasDerivAt_id σ).const_mul B)
    have hg2 : HasDerivAt (fun x : ℝ => A * x⁻¹ - B * x) (A * (-(σ ^ 2)⁻¹) - B * 1) σ :=
      ((hasDerivAt_inv hσ0).const_mul A).sub ((hasDerivAt_id σ).const_mul B)
    have h1 : HasDerivAt (fun x : ℝ => normCdf (A * x⁻¹ + B * x))
        (normPdf (A * σ⁻¹ + B * σ) * (A * (-(σ ^ 2)⁻¹) + B * 1)) σ :=
      (hasDerivAt_normCdf _).comp σ hg1
    have h2 : HasDerivAt (fun x : ℝ => normCdf (A * x⁻¹ - B * x))
        (normPdf (A * σ⁻¹ - B * σ) * (A * (-(σ ^ 2)⁻¹) - B * 1)) σ :=
      (hasDerivAt_normCdf _).comp σ hg2
    have hD := (h1.const_mul C).sub (h2.const_mul E)
    have heq : C * (normPdf (A * σ⁻¹ + B * σ) * (A * (-(σ ^ 2)⁻¹) + B * 1))
          - E * (normPdf (A * σ⁻¹ - B * σ) * (A * (-(σ ^ 2)⁻¹) - B * 1))
        = 2 * B * (E * normPdf (A * σ⁻¹ - B * σ)) := by
      linear_combination (A * (-(σ ^ 2)⁻¹) + B) * hid σ hσ0
    rw [heq] at hD
    exact hD
  apply strictMonoOn_of_deriv_pos (convex_Ioi 0)
  · intro σ hσ
    exact ((hderiv σ hσ).differentiableAt.continuousAt).continuousWithinAt
  · intro σ hσ
    rw [interior_Ioi] at hσ
    rw [(hderiv σ hσ).deriv]
    exact mul_pos (by linarith) (mul_pos hE (normPdf_pos _))

/-- C7 (amended): monotonicity in volatility on the Black-Scholes region — for
every S > 0, K > 0, T > 0 and every real r, `sigma ↦ black_scholes_price S K T r
sigma "call"` is non-decreasing on sigma ∈ (0, ∞).  (Across the sigma ≤ 0
intrinsic-value boundary the original claim fails when r < 0; see the
counterexample.) -/
theorem C7_call_price_monotone_on_pos_sigma (S K T r : ℝ)
    (hS : 0 < S) (hK : 0 < K) (hT : 0 < T) :
    MonotoneOn (fun sigma => black_scholes_price S K T r sigma "call") (Set.Ioi 0) := by
  have hsT : 0 < Real.sqrt T := Real.sqrt_pos.mpr hT
  have hTT : Real.sqrt T * Real.sqrt T = T := Real.mul_self_sqrt hT.le
  set A := (Real.log (S / K) + r * T) / Real.sqrt T with hA
  set B := Real.sqrt T / 2 with hB
  set E := K * Real.exp (-r * T) with hE
  have hBpos : 0 < B := div_pos hsT (by norm_num)
  have hEpos : 0 < E := mul_pos hK (Real.exp_pos _)
  have hid : ∀ σ : ℝ, σ ≠ 0 →
      S * normPdf (A * σ⁻¹ + B * σ) = E * normPdf (A * σ⁻¹ - B * σ) := by
    intro σ hσ
    have hexp : S * Real.exp (-((A * σ⁻¹ + B * σ) ^ 2) / 2)
        = E * Real.exp (-((A * σ⁻¹ - B * σ) ^ 2) / 2) := by
      have h4 : (A * σ⁻¹ + B * σ) ^ 2 - (A * σ⁻¹ - B * σ) ^ 2 = 4 * (A * B) * (σ⁻¹ * σ) := by
        ring
      rw [inv_mul_cancel₀ hσ, mul_one] at h4
      have hAB : A * B = (Real.log (S / K) + r * T) / 2 := by
        rw [hA, hB]
        field_simp
      have hsq : -((A * σ⁻¹ + B * σ) ^ 2) / 2
          = -((A * σ⁻¹ - B * σ) ^ 2) / 2 - (Real.log (S / K) + r * T) := by
        rw [hAB] at h4
        linarith
      rw [hsq, Real.exp_sub, Real.exp_add, Real.exp_log (div_pos hS hK), hE, neg_mul,
        Real.exp_neg]
      field_simp
      ring
    unfold normPdf
    rw [← mul_div_assoc, ← mul_div_assoc, hexp]
  have hEqOn : ∀ σ ∈ Set.Ioi (0 : ℝ),
      black_scholes_price S K T r σ "call"
        = S * normCdf (A * σ⁻¹ + B * σ) - E * normCdf (A * σ⁻¹ - B * σ) := by
    intro σ hσ
    have hσ0 : 0 < σ := Set.mem_Ioi.mp hσ
    have hd1 : (Real.log (S / K) + (r + 0.5 * σ ^ 2) * T) / (σ * Real.sqrt T)
        = A * σ⁻¹ + B * σ := by
      rw [hA, hB]
      field_simp
      linear_combination (-(σ ^ 3 * Real.sqrt T)) * hTT
    have hd2 : A * σ⁻¹ + B * σ - σ * Real.sqrt T = A * σ⁻¹ - B * σ := by
      rw [hB]
      ring
    unfold black_scholes_price _d1_d2
    rw [if_neg (by push_neg; exact ⟨hT, hσ0⟩), if_pos rfl]
    dsimp only
    rw [hd1, hd2, hE]
  have hmono := bs_call_shape_strictMono S E A B hEpos hBpos hid
  intro a ha b hb hab
  rcases eq_or_lt_of_le hab with h | h
  · subst h
    exact le_rfl
  · show black_scholes_price S K T r a "call" ≤ black_scholes_price S K T r b "call"
    rw [hEqOn a ha, hEqOn b hb]
    exact (hmono ha hb h).le

/-- Witness for the amended C7 at S=100, K=95, T=1, r=0.05. -/
theorem C7_call_price_monotone_on_pos_sigma_witness :
    MonotoneOn (fun sigma => black_scholes_price 100 95 1 0.05 sigma "call") (Set.Ioi 0) :=
  C7_call_price_monotone_on_pos_sigma 100 95 1 0.05 (by norm_num) (by norm_num) (by norm_num)

/-- Counterexample to C7 as stated: at S=1000, K=100, T=1, r=-1 the call price at
sigma = 1 is strictly below the price at sigma = 0 (the intrinsic value 900), so
`sigma ↦ black_scholes_price 1000 100 1 (-1) sigma "call"` is not non-decreasing
across the sigma ≤ 0 intrinsic-value boundary. -/
theorem C7_counterexample :
    black_scholes_price 1000 100 1 (-1) 1 "call"
      < black_scholes_price 1000 100 1 (-1) 0 "call" := by
  have hb : black_scholes_price 1000 100 1 (-1) 0 "call" = 900 := by
    unfold black_scholes_price
    rw [if_pos (Or.inr le_rfl), if_pos rfl]
    norm_num
  have hd : _d1_d2 1000 100 1 (-1) 1 = (Real.log 10 - 0.5, Real.log 10 - 1.5) := by
    unfold _d1_d2
    rw [Real.sqrt_one, show (1000 : ℝ) / 100 = 10 by norm_num]
    norm_num
    exact ⟨by ring, by ring⟩
  have hp : black_scholes_price 1000 100 1 (-1) 1 "call"
      = 1000 * normCdf (Real.log 10 - 0.5) - 100 * Real.exp 1 * normCdf (Real.log 10 - 1.5) := by
    unfold black_scholes_price
    rw [if_neg (by norm_num), if_pos rfl, hd]
    norm_num
  have h10 : (3 / 2 : ℝ) < Real.log 10 := by
    rw [Real.lt_log_iff_exp_lt (by norm_num : (0 : ℝ) < 10)]
    have h1 : Real.exp (3 / 2 : ℝ) < Real.exp 2 := Real.exp_lt_exp.mpr (by norm_num)
    have h2 : Real.exp 2 = Real.exp 1 * Real.exp 1 := by
      rw [← Real.exp_add]; norm_num
    nlinarith [Real.exp_one_lt_d9, Real.exp_pos 1]
  have hc1 : normCdf (Real.log 10 - 0.5) ≤ 1 := normCdf_le_one _
  have hc2 : (1 / 2 : ℝ) ≤ normCdf (Real.log 10 - 1.5) := by
    rw [← normCdf_zero]
    exact normCdf_mono (by linarith)
  have hc0 : 0 ≤ normCdf (Real.log 10 - 0.5) := normCdf_nonneg _
  have hexp1 : (2.7 : ℝ) < Real.exp 1 := by
    have := Real.exp_one_gt_d9
    linarith
  have key : (135 : ℝ) ≤ 100 * Real.exp 1 * normCdf (Real.log 10 - 1.5) := by
    nlinarith [hexp1, hc2]
  rw [hb, hp]
  linarith

end
